import Mathlib

/-!
Verification of the term search and matching engine of the Glossar app
(`src/App.tsx` and the earlier single-file variant of the same component).

Strings are modelled as lists of Unicode code points (`List Nat`), matching the
JavaScript view of a string as a sequence of code points for the operations the
code performs (indexing, length, equality of code points).

The JavaScript platform primitives used by the code
(`String.prototype.normalize("NFKD")`, the regex class for the Unicode
Diacritic property, `String.prototype.toLowerCase`, `String.prototype.trim`)
are modelled per the Unicode Character Database, restricted to the code points
that occur in this development; every code point without an explicit table
entry is treated as having no decomposition, no Diacritic property, no
combining-mark property and no case mapping, which agrees with the UCD on all
code points appearing below.
-/

namespace Glossar

/-- A string as the sequence of its Unicode code points. -/
abbrev Str := List Nat

/-- Models Unicode NFKD decomposition of a single code point
(`String.prototype.normalize("NFKD")` applied pointwise).  Table entries follow
the UnicodeData.txt decomposition mappings (applied recursively); code points
without an entry here have no decomposition in the UCD or do not occur in this
development.  Note that 0x00B2 (superscript two) carries a compatibility
mapping, so NFKD sends it to the plain digit 2. -/
def nfkdPoint (c : Nat) : List Nat :=
  if c = 0xC9 then [0x45, 0x301]        -- E with acute -> E, combining acute
  else if c = 0xE9 then [0x65, 0x301]   -- e with acute -> e, combining acute
  else if c = 0xDC then [0x55, 0x308]   -- U with diaeresis -> U, combining diaeresis
  else if c = 0xFC then [0x75, 0x308]   -- u with diaeresis -> u, combining diaeresis
  else if c = 0xB2 then [0x32]          -- superscript two -> digit two (compatibility)
  else [c]

/-- Models Unicode canonical (NFD) decomposition of a single code point, for
the specification-side description of the normalizer.  It agrees with
`nfkdPoint` on canonical mappings but leaves compatibility characters such as
0x00B2 alone, since their mappings are not canonical. -/
def nfdPoint (c : Nat) : List Nat :=
  if c = 0xC9 then [0x45, 0x301]
  else if c = 0xE9 then [0x65, 0x301]
  else if c = 0xDC then [0x55, 0x308]
  else if c = 0xFC then [0x75, 0x308]
  else [c]

/-- Models the Unicode binary property Diacritic (the character class the
source's regex replacement uses), per PropList.txt: the sub-ranges of the
Combining Diacritical Marks block carrying the property, together with the
non-combining diacritic code points below 0x300, among them 0x5E (circumflex
accent, category Sk), which has the property although it is not a combining
mark. -/
def isDiacritic (c : Nat) : Bool :=
  decide ((0x300 ≤ c ∧ c ≤ 0x34E) ∨ (0x350 ≤ c ∧ c ≤ 0x357) ∨ (0x35D ≤ c ∧ c ≤ 0x362)
    ∨ c = 0x5E ∨ c = 0x60 ∨ c = 0xA8 ∨ c = 0xAF ∨ c = 0xB4 ∨ c = 0xB7 ∨ c = 0xB8)

/-- Models the combining-mark code points (general category Mn), restricted to
the Combining Diacritical Marks block, for the specification-side description
of the normalizer. -/
def isCombiningMark (c : Nat) : Bool :=
  decide (0x300 ≤ c ∧ c ≤ 0x36F)

/-- Models `String.prototype.toLowerCase` pointwise, restricted to the code
points used in this development: ASCII uppercase letters map to their lowercase
forms; every other code point occurring below is lowercase-invariant per the
UCD. -/
def toLowerPoint (c : Nat) : Nat :=
  if 0x41 ≤ c ∧ c ≤ 0x5A then c + 32 else c

/-- Normalization of a plain string, as the source's `normalize` performs it on
a string argument: NFKD decomposition, removal of every code point matched by
the Diacritic regex class, then lower-casing. -/
def normalizeS (s : Str) : Str :=
  ((s.flatMap nfkdPoint).filter (fun c => !(isDiacritic c))).map toLowerPoint

/-- The source's `normalize`: `(str || "").toString()` maps a nullish argument
to the empty string (and is the identity on strings), then NFKD, Diacritic
stripping and lower-casing are applied. -/
def normalize (str : Option Str) : Str :=
  normalizeS (str.getD [])

/-- Modelled from the spec: the normalizer as section 4.1 words it — nullish
input becomes the empty string, then canonical decomposition separates base
characters from combining diacritical marks, all combining-mark code points
are stripped, and the result is lower-cased. -/
def normalizeSpecNFD (str : Option Str) : Str :=
  (((str.getD []).flatMap nfdPoint).filter (fun c => !(isCombiningMark c))).map toLowerPoint

/-- The amended description of the normalizer: nullish input becomes the empty
string, then compatibility (NFKD) decomposition, removal of all code points
carrying the Unicode Diacritic property, and lower-casing. -/
def normalizeAmended (str : Option Str) : Str :=
  (((str.getD []).flatMap nfkdPoint).filter (fun c => !(isDiacritic c))).map toLowerPoint

/-- Models the white-space set recognized by `String.prototype.trim`,
restricted to the code points used here (ASCII white space and NBSP). -/
def isJsSpace (c : Nat) : Bool :=
  decide (c = 0x20 ∨ c = 0x9 ∨ c = 0xA ∨ c = 0xB ∨ c = 0xC ∨ c = 0xD ∨ c = 0xA0)

/-- Models `String.prototype.trim`: strip white space from both ends. -/
def trim (s : Str) : Str :=
  ((s.dropWhile isJsSpace).reverse.dropWhile isJsSpace).reverse

/-! ## The edit-distance computation (`levenshtein` in the source)

The source builds the classic (m+1) x (n+1) dynamic-programming table row by
row with two nested loops.  `levRowAux` is the inner loop (columns 1..n of one
row), `levRow` builds a full row from the previous one, and `levRows` is the
outer loop over the rows 1..m. -/

/-- Inner loop of the table: given the current row character `ai`, the value
diagonally above-left (`diag`), the value to the left (`left`), the remainder
of the previous row from the current column on (`ps`), and the remaining
characters of `b` (`bs`), produce the rest of the current row. -/
def levRowAux (ai : Nat) : Nat → Nat → List Nat → Str → List Nat
  | _, _, [], _ => []
  | _, _, _ :: _, [] => []
  | diag, left, p :: ps, bj :: bs =>
    let cost := if ai = bj then 0 else 1
    let cur := min (min (p + 1) (left + 1)) (diag + cost)
    cur :: levRowAux ai p cur ps bs

/-- Row `i` of the table (`dp[i][0] = i`, then the inner loop), built from the
previous row `prev`. -/
def levRow (ai i : Nat) (prev : List Nat) (b : Str) : List Nat :=
  i :: levRowAux ai (prev.headD 0) i prev.tail b

/-- Outer loop: fold the remaining characters of `a` over the rows, carrying
the index of the row already built. -/
def levRows (b : Str) : Str → Nat → List Nat → List Nat
  | [], _, prev => prev
  | c :: rest, i, prev => levRows b rest (i + 1) (levRow c (i + 1) prev b)

/-- The source's `levenshtein`: both arguments are normalized first; if either
normalized string is empty the other's length is returned, otherwise the DP
table is built (row 0 is `0..n`) and the bottom-right cell is returned. -/
def levenshtein (a0 b0 : Str) : Nat :=
  let a := normalizeS a0
  let b := normalizeS b0
  let m := a.length
  let n := b.length
  if m = 0 then n
  else if n = 0 then m
  else (levRows b a 0 (List.range (n + 1))).getLastD 0

/-- Modelled from the spec: the defining recurrence of the classic
(len a + 1) x (len b + 1) edit-distance table — `dp i j` is the cell in row
`i`, column `j`; border cells hold the indices, and an inner cell is the
minimum of deletion, insertion, and substitution with cost 0 for matching
characters and 1 otherwise. -/
def dp (a b : Str) : Nat → Nat → Nat
  | 0, j => j
  | i + 1, 0 => i + 1
  | i + 1, j + 1 =>
    min (min (dp a b i (j + 1) + 1) (dp a b (i + 1) j + 1))
      (dp a b i j + (if a.getD i 0 = b.getD j 0 then 0 else 1))

/-! ## Entries and the matcher -/

/-- A glossary record as in the source: term, definition, example and the list
of associated source labels (the earlier variant has no `quellen` field; its
operations never touch it, so one record type serves both files). -/
structure Entry where
  begriff : Str
  definition : Str
  beispiel : Str
  quellen : List Str
deriving DecidableEq, Repr

/-- Models `hay.startsWith(needle)` on code-point sequences. -/
def jsStartsWith : Str → Str → Bool
  | _, [] => true
  | [], _ :: _ => false
  | c :: h, d :: n => c == d && jsStartsWith h n

/-- Models `hay.includes(needle)`: the needle occurs contiguously somewhere. -/
def jsIncludes : Str → Str → Bool
  | [], needle => jsStartsWith [] needle
  | c :: t, needle => jsStartsWith (c :: t) needle || jsIncludes t needle

/-- Insertion into a run already sorted by ascending stored distance, placing
the new pair before the first pair of equal or larger distance. -/
def insertByDist (p : Entry × Nat) : List (Entry × Nat) → List (Entry × Nat)
  | [] => [p]
  | q :: l => if p.2 ≤ q.2 then p :: q :: l else q :: insertByDist p l

/-- Models the source's `.sort((a, b) => a.d - b.d)`: `Array.prototype.sort`
is stable and the comparator orders by ascending `d`, so the call is a stable
sort by ascending stored distance.  Insertion of each element in front of the
later-inserted pairs of equal distance realizes exactly that. -/
def sortByDist : List (Entry × Nat) → List (Entry × Nat)
  | [] => []
  | p :: l => insertByDist p (sortByDist l)

/-- The search over the (caller-sorted) entry sequence, from the `results`
memo of the source: trim the query; empty query returns the input; otherwise
the exact tier, then the substring tier, then — only with fuzzy enabled — the
tolerance-filtered distance-sorted fuzzy tier; otherwise the empty list. -/
def results (sorted : List Entry) (query : Str) (fuzzy : Bool) (fuzzyTol : Nat) :
    List Entry :=
  let q := trim query
  if q = [] then sorted
  else
    let nq := normalizeS q
    let exact := sorted.filter (fun e => decide (normalizeS e.begriff = nq))
    if exact ≠ [] then exact
    else
      let sub := sorted.filter (fun e => jsIncludes (normalizeS e.begriff) nq)
      if sub ≠ [] then sub
      else if fuzzy then
        ((sortByDist (((sorted.map (fun e => (e, levenshtein nq e.begriff))).filter
          (fun x => decide (x.2 ≤ fuzzyTol))))).map Prod.fst)
      else []

/-- The autocomplete list from the `suggestions` memo of the earlier variant:
normalize the (untrimmed) query; an empty normalized query yields no
suggestions, otherwise the entries whose normalized term starts with it come
first, then those that merely contain it, and the list is cut to 8 items. -/
def suggestions (sorted : List Entry) (query : Str) : List Entry :=
  let nq := normalizeS query
  if nq = [] then []
  else
    let starts := sorted.filter (fun e => jsStartsWith (normalizeS e.begriff) nq)
    let rest := sorted.filter (fun e =>
      !jsStartsWith (normalizeS e.begriff) nq && jsIncludes (normalizeS e.begriff) nq)
    (starts ++ rest).take 8

/-! ## Collection operations -/

/-- The mode of the editor pop-up. -/
inductive EditorMode where
  | create
  | edit
deriving DecidableEq

/-- The find-index-then-replace-or-push step shared by the create branch of
`saveEditor` and the CSV import merge: the first entry with canonically equal
term is overwritten, otherwise the record is appended. -/
def upsert (prev : List Entry) (p : Entry) : List Entry :=
  match prev.findIdx? (fun x => decide (normalizeS x.begriff = normalizeS p.begriff)) with
  | some i => prev.set i p
  | none => prev ++ [p]

/-- The source's `saveEditor` acting on the entry list: the form fields are
trimmed; an empty trimmed term leaves the list unchanged (the source alerts
and returns); in edit mode with an index the record at that index is
overwritten directly; otherwise the canonical-key upsert runs. -/
def saveEditor (mode : EditorMode) (idx : Option Nat) (fB fD fX : Str)
    (fQ : List Str) (prev : List Entry) : List Entry :=
  let trimmed : Entry := ⟨trim fB, trim fD, trim fX, fQ⟩
  if trim fB = [] then prev
  else
    match mode, idx with
    | EditorMode.edit, some i => prev.set i trimmed
    | _, _ => upsert prev trimmed

/-- The merge step of `importCSVFromFile`: each parsed record with a non-empty
trimmed term is upserted, in order, into the accumulated list. -/
def importMerge (prev parsed : List Entry) : List Entry :=
  parsed.foldl (fun merged p => if trim p.begriff = [] then merged else upsert merged p) prev

/-- The earlier variant's `removeEntry`: keep the entries whose canonical term
differs from the canonical form of the given term. -/
def removeEntry (prev : List Entry) (begr : Str) : List Entry :=
  prev.filter (fun p => decide (normalizeS p.begriff ≠ normalizeS begr))

/-- The deletion in the detail pop-up of `App.tsx`: keep the entries whose raw
term differs from the selected term (no canonicalization). -/
def deleteSelected (prev : List Entry) (b : Str) : List Entry :=
  prev.filter (fun e => decide (e.begriff ≠ b))

/-- The uniqueness invariant: no two entries of the collection have equal
canonicalized terms. -/
def canonInvariant (l : List Entry) : Prop :=
  l.Pairwise (fun a b => normalizeS a.begriff ≠ normalizeS b.begriff)

instance (l : List Entry) : Decidable (canonInvariant l) := by
  unfold canonInvariant; infer_instance

/-! ## Helper lemmas about the normalizer -/

lemma nfkdPoint_mem_fixed {b c : Nat} (hc : c ∈ nfkdPoint b) : nfkdPoint c = [c] := by
  rcases eq_or_ne b 0xC9 with rfl | h1
  · simp [nfkdPoint] at hc
    rcases hc with rfl | rfl <;> decide
  rcases eq_or_ne b 0xE9 with rfl | h2
  · simp [nfkdPoint] at hc
    rcases hc with rfl | rfl <;> decide
  rcases eq_or_ne b 0xDC with rfl | h3
  · simp [nfkdPoint] at hc
    rcases hc with rfl | rfl <;> decide
  rcases eq_or_ne b 0xFC with rfl | h4
  · simp [nfkdPoint] at hc
    rcases hc with rfl | rfl <;> decide
  rcases eq_or_ne b 0xB2 with rfl | h5
  · simp [nfkdPoint] at hc
    subst hc; decide
  have he : nfkdPoint b = [b] := by
    unfold nfkdPoint
    simp [h1, h2, h3, h4, h5]
  rw [he] at hc
  simp at hc
  subst hc
  exact he

lemma toLowerPoint_of_upper {c : Nat} (h : 0x41 ≤ c ∧ c ≤ 0x5A) :
    toLowerPoint c = c + 32 := by
  unfold toLowerPoint; rw [if_pos h]

lemma toLowerPoint_of_not_upper {c : Nat} (h : ¬(0x41 ≤ c ∧ c ≤ 0x5A)) :
    toLowerPoint c = c := by
  unfold toLowerPoint; rw [if_neg h]

lemma point_closure {c : Nat} (h1 : nfkdPoint c = [c]) (h2 : isDiacritic c = false) :
    nfkdPoint (toLowerPoint c) = [toLowerPoint c] ∧
      isDiacritic (toLowerPoint c) = false ∧ toLowerPoint (toLowerPoint c) = toLowerPoint c := by
  by_cases h : 0x41 ≤ c ∧ c ≤ 0x5A
  · rw [toLowerPoint_of_upper h]
    refine ⟨?_, ?_, ?_⟩
    · unfold nfkdPoint
      have g1 : ¬(c + 32 = 0xC9) := by omega
      have g2 : ¬(c + 32 = 0xE9) := by omega
      have g3 : ¬(c + 32 = 0xDC) := by omega
      have g4 : ¬(c + 32 = 0xFC) := by omega
      have g5 : ¬(c + 32 = 0xB2) := by omega
      simp [g1, g2, g3, g4, g5]
    · simp only [isDiacritic, decide_eq_false_iff_not]
      omega
    · exact toLowerPoint_of_not_upper (by omega)
  · rw [toLowerPoint_of_not_upper h]
    exact ⟨h1, h2, toLowerPoint_of_not_upper h⟩

lemma mem_normalizeS_closure {s : Str} {c : Nat} (hc : c ∈ normalizeS s) :
    nfkdPoint c = [c] ∧ isDiacritic c = false ∧ toLowerPoint c = c := by
  unfold normalizeS at hc
  simp only [List.mem_map, List.mem_filter, List.mem_flatMap] at hc
  obtain ⟨c₀, ⟨⟨b, _, hc₀⟩, hdia⟩, rfl⟩ := hc
  exact point_closure (nfkdPoint_mem_fixed hc₀) (by simpa using hdia)

lemma normalizeS_fixed :
    ∀ {s : Str}, (∀ c ∈ s, nfkdPoint c = [c] ∧ isDiacritic c = false ∧ toLowerPoint c = c) →
      normalizeS s = s := by
  intro s
  induction s with
  | nil => intro; rfl
  | cons c t ih =>
    intro h
    obtain ⟨h1, h2, h3⟩ := h c (by simp)
    have ht : normalizeS t = t := ih (fun d hd => h d (by simp [hd]))
    unfold normalizeS at ht ⊢
    simp [h1, h2, h3, ht]

lemma normalizeS_idem (s : Str) : normalizeS (normalizeS s) = normalizeS s :=
  normalizeS_fixed (fun _ hc => mem_normalizeS_closure hc)

/-! ## Correctness of the iterative table against the defining recurrence -/

lemma getD_of_drop : ∀ (l : List Nat) (j : Nat) {x : Nat} {xs : List Nat},
    l.drop j = x :: xs → ∀ d, l.getD j d = x := by
  intro l
  induction l with
  | nil => intro j x xs h; simp at h
  | cons c t ih =>
    intro j x xs h d
    cases j with
    | zero => simp at h; simp [h.1]
    | succ j => exact ih j (by simpa using h) d

lemma drop_of_drop_cons : ∀ (l : List Nat) (j : Nat) {x : Nat} {xs : List Nat},
    l.drop j = x :: xs → l.drop (j + 1) = xs := by
  intro l
  induction l with
  | nil => intro j x xs h; simp at h
  | cons c t ih =>
    intro j x xs h
    cases j with
    | zero => simp at h ⊢; exact h.2
    | succ j => exact ih j (by simpa using h)

lemma dp_zero_left (a b : Str) (j : Nat) : dp a b 0 j = j := by
  simp [dp]

lemma dp_row_zero (a b : Str) (i : Nat) : dp a b i 0 = i := by
  cases i with
  | zero => exact dp_zero_left a b 0
  | succ n => simp [dp]

lemma dp_succ_succ (a b : Str) (i j : Nat) :
    dp a b (i + 1) (j + 1)
      = min (min (dp a b i (j + 1) + 1) (dp a b (i + 1) j + 1))
          (dp a b i j + (if a.getD i 0 = b.getD j 0 then 0 else 1)) := by
  simp [dp]

lemma levRowAux_spec (a b : Str) (i : Nat) :
    ∀ (bs : Str) (j : Nat), b.drop j = bs → j + bs.length = b.length →
      levRowAux (a.getD i 0) (dp a b i j) (dp a b (i + 1) j)
          ((List.range' (j + 1) bs.length).map (dp a b i)) bs
        = (List.range' (j + 1) bs.length).map (dp a b (i + 1)) := by
  intro bs
  induction bs with
  | nil => intro j _ _; rfl
  | cons bj bs ih =>
    intro j h1 h2
    have hbj : b.getD j 0 = bj := getD_of_drop b j h1 0
    have hdrop : b.drop (j + 1) = bs := drop_of_drop_cons b j h1
    simp only [List.length_cons]
    rw [List.range'_succ, List.map_cons, List.map_cons]
    show (let cost := if a.getD i 0 = bj then 0 else 1;
          let cur := min (min (dp a b i (j + 1) + 1) (dp a b (i + 1) j + 1))
            (dp a b i j + cost);
          cur :: levRowAux (a.getD i 0) (dp a b i (j + 1)) cur
            ((List.range' (j + 1 + 1) bs.length).map (dp a b i)) bs)
        = dp a b (i + 1) (j + 1) :: (List.range' (j + 1 + 1) bs.length).map (dp a b (i + 1))
    have hcur : min (min (dp a b i (j + 1) + 1) (dp a b (i + 1) j + 1))
        (dp a b i j + (if a.getD i 0 = bj then 0 else 1)) = dp a b (i + 1) (j + 1) := by
      rw [dp_succ_succ, hbj]
    simp only []
    rw [hcur]
    congr 1
    have := ih (j + 1) hdrop (by simp at h2 ⊢; omega)
    simpa using this

lemma levRow_spec (a b : Str) (i : Nat) (c : Nat) (hc : a.getD i 0 = c) :
    levRow c (i + 1) ((List.range (b.length + 1)).map (dp a b i)) b
      = (List.range (b.length + 1)).map (dp a b (i + 1)) := by
  unfold levRow
  rw [List.range_eq_range', List.range'_succ, List.map_cons, List.map_cons,
    List.headD_cons, List.tail_cons]
  have h1 : dp a b (i + 1) 0 = i + 1 := dp_row_zero a b (i + 1)
  rw [h1]
  congr 1
  have key := levRowAux_spec a b i b 0 rfl (by omega)
  rw [hc, h1] at key
  exact key

lemma levRows_spec (a b : Str) :
    ∀ (rest : Str) (i : Nat), a.drop i = rest → i ≤ a.length →
      levRows b rest i ((List.range (b.length + 1)).map (dp a b i))
        = (List.range (b.length + 1)).map (dp a b a.length) := by
  intro rest
  induction rest with
  | nil =>
    intro i h1 h2
    have hlen : a.length - i = 0 := by
      have := congrArg List.length h1
      simpa using this
    have : i = a.length := by omega
    subst this
    rfl
  | cons c rest ih =>
    intro i h1 h2
    have hc : a.getD i 0 = c := getD_of_drop a i h1 0
    have hdrop : a.drop (i + 1) = rest := drop_of_drop_cons a i h1
    have hlt : i < a.length := by
      have := congrArg List.length h1
      simp at this
      omega
    show levRows b rest (i + 1)
        (levRow c (i + 1) ((List.range (b.length + 1)).map (dp a b i)) b)
      = (List.range (b.length + 1)).map (dp a b a.length)
    rw [levRow_spec a b i c hc]
    exact ih (i + 1) hdrop (by omega)

lemma map_range_getLastD (f : Nat → Nat) (n : Nat) :
    ((List.range (n + 1)).map f).getLastD 0 = f n := by
  rw [List.range_succ, List.map_append]
  simp [List.getLastD_concat]

/-- The iterative table computation agrees with the defining recurrence of the
classic edit-distance table, evaluated at the bottom-right cell over the
normalized strings. -/
lemma lev_eq_dp (a b : Str) :
    levenshtein a b
      = dp (normalizeS a) (normalizeS b) (normalizeS a).length (normalizeS b).length := by
  unfold levenshtein
  by_cases hm : (normalizeS a).length = 0
  · rw [if_pos hm, hm, dp_zero_left]
  · rw [if_neg hm]
    by_cases hn : (normalizeS b).length = 0
    · rw [if_pos hn, hn, dp_row_zero]
    · rw [if_neg hn]
      have h0 : (List.range ((normalizeS b).length + 1)).map (dp (normalizeS a) (normalizeS b) 0)
          = List.range ((normalizeS b).length + 1) := by
        rw [List.map_congr_left (fun x _ => dp_zero_left (normalizeS a) (normalizeS b) x)]
        exact List.map_id _
      rw [← h0, levRows_spec (normalizeS a) (normalizeS b) (normalizeS a) 0 rfl (by omega),
        map_range_getLastD]

/-! ## Zero distance characterizes canonical equality -/

lemma take_succ_eq_iff {a b : Str} {i j : Nat} (hi : i < a.length) (hj : j < b.length) :
    a.take (i + 1) = b.take (j + 1) ↔ (a.take i = b.take j ∧ a.getD i 0 = b.getD j 0) := by
  have hga : a.getD i 0 = a[i] := by simp [List.getD_eq_getElem?_getD, hi]
  have hgb : b.getD j 0 = b[j] := by simp [List.getD_eq_getElem?_getD, hj]
  rw [List.take_succ, List.take_succ, List.getElem?_eq_getElem hi, List.getElem?_eq_getElem hj]
  simp only [Option.toList_some, hga, hgb]
  constructor
  · intro h
    have hlen : (a.take i).length = (b.take j).length := by
      have h' := congrArg List.length h
      simp [List.length_take] at h' ⊢
      omega
    obtain ⟨h1, h2⟩ := List.append_inj h (by simpa using hlen)
    exact ⟨h1, by simpa using h2⟩
  · rintro ⟨h1, h2⟩
    rw [h1, h2]

lemma dp_zero_iff (a b : Str) :
    ∀ (i j : Nat), i ≤ a.length → j ≤ b.length → (dp a b i j = 0 ↔ a.take i = b.take j) := by
  intro i
  induction i with
  | zero =>
    intro j _ hj
    rw [dp_zero_left]
    constructor
    · rintro rfl; rfl
    · intro h
      rcases List.take_eq_nil_iff.1 h.symm with h' | h'
      · exact h'
      · subst h'; simpa using hj
  | succ i ih =>
    intro j hi hj
    cases j with
    | zero =>
      rw [dp_row_zero]
      constructor
      · intro h; cases h
      · intro h
        rcases List.take_eq_nil_iff.1 h with h' | h'
        · cases h'
        · subst h'; simp at hi
    | succ j =>
      rw [dp_succ_succ]
      have h1 : i ≤ a.length := by omega
      have h2 : j ≤ b.length := by omega
      rw [Nat.min_eq_zero_iff, Nat.min_eq_zero_iff]
      constructor
      · rintro ((h | h) | h)
        · omega
        · omega
        · have hdp : dp a b i j = 0 := by omega
          have hcost : a.getD i 0 = b.getD j 0 := by
            by_cases hc : a.getD i 0 = b.getD j 0
            · exact hc
            · rw [if_neg hc] at h; omega
          exact (take_succ_eq_iff (by omega) (by omega)).2 ⟨(ih j h1 h2).1 hdp, hcost⟩
      · intro h
        obtain ⟨ht, hc⟩ := (take_succ_eq_iff (by omega) (by omega)).1 h
        right
        rw [if_pos hc, (ih j h1 h2).2 ht]

lemma lev_zero_iff (a b : Str) : levenshtein a b = 0 ↔ normalizeS a = normalizeS b := by
  rw [lev_eq_dp, dp_zero_iff _ _ _ _ (Nat.le_refl _) (Nat.le_refl _),
    List.take_length, List.take_length]

/-- Distance depends only on the normalized forms: normalizing the arguments
first does not change the computed distance. -/
lemma lev_normalized (a b : Str) :
    levenshtein a b = levenshtein (normalizeS a) (normalizeS b) := by
  rw [lev_eq_dp, lev_eq_dp (normalizeS a) (normalizeS b), normalizeS_idem, normalizeS_idem]

/-! ## Prefix and substring relations, declaratively -/

/-- The needle is an initial segment of the hay. -/
def StartsP (hay needle : Str) : Prop := ∃ t, needle ++ t = hay

/-- The needle occurs contiguously inside the hay. -/
def ContainsP (hay needle : Str) : Prop := ∃ u v, u ++ needle ++ v = hay

lemma jsStartsWith_iff : ∀ (hay needle : Str), jsStartsWith hay needle = true ↔ StartsP hay needle := by
  intro hay
  induction hay with
  | nil =>
    intro needle
    cases needle with
    | nil => simp [jsStartsWith, StartsP]
    | cons d n => simp [jsStartsWith, StartsP]
  | cons c h ih =>
    intro needle
    cases needle with
    | nil => simp [jsStartsWith, StartsP]
    | cons d n =>
      simp only [jsStartsWith, Bool.and_eq_true, beq_iff_eq, ih n, StartsP]
      constructor
      · rintro ⟨rfl, t, rfl⟩
        exact ⟨t, rfl⟩
      · rintro ⟨t, ht⟩
        rw [List.cons_append] at ht
        injection ht with h1 h2
        exact ⟨h1.symm, t, h2⟩

lemma jsIncludes_iff : ∀ (hay needle : Str), jsIncludes hay needle = true ↔ ContainsP hay needle := by
  intro hay
  induction hay with
  | nil =>
    intro needle
    cases needle with
    | nil => exact ⟨fun _ => ⟨[], [], rfl⟩, fun _ => rfl⟩
    | cons d n =>
      simp only [jsIncludes, jsStartsWith, ContainsP]
      constructor
      · intro h; cases h
      · rintro ⟨u, v, hu⟩
        simp at hu
  | cons c t ih =>
    intro needle
    simp only [jsIncludes, Bool.or_eq_true, jsStartsWith_iff, ih, StartsP, ContainsP]
    constructor
    · rintro (⟨s, hs⟩ | ⟨u, v, hu⟩)
      · exact ⟨[], s, by simpa using hs⟩
      · exact ⟨c :: u, v, by simp [hu]⟩
    · rintro ⟨u, v, hu⟩
      cases u with
      | nil => exact Or.inl ⟨v, by simpa using hu⟩
      | cons c' u' =>
        rw [List.cons_append, List.cons_append] at hu
        injection hu with h1 h2
        exact Or.inr ⟨u', v, by simpa using h2⟩

instance (hay needle : Str) : Decidable (StartsP hay needle) :=
  decidable_of_iff _ (jsStartsWith_iff hay needle)

instance (hay needle : Str) : Decidable (ContainsP hay needle) :=
  decidable_of_iff _ (jsIncludes_iff hay needle)

lemma decide_startsP (hay needle : Str) :
    decide (StartsP hay needle) = jsStartsWith hay needle := by
  cases hb : jsStartsWith hay needle with
  | false =>
    rw [decide_eq_false_iff_not]
    intro hp
    rw [(jsStartsWith_iff hay needle).2 hp] at hb
    cases hb
  | true => exact decide_eq_true ((jsStartsWith_iff hay needle).1 hb)

lemma decide_containsP (hay needle : Str) :
    decide (ContainsP hay needle) = jsIncludes hay needle := by
  cases hb : jsIncludes hay needle with
  | false =>
    rw [decide_eq_false_iff_not]
    intro hp
    rw [(jsIncludes_iff hay needle).2 hp] at hb
    cases hb
  | true => exact decide_eq_true ((jsIncludes_iff hay needle).1 hb)

/-! ## Sample entries used by concrete witnesses -/

/-- Entry with term "Algorithmus". -/
def sampleAlgorithmus : Entry :=
  ⟨[65, 108, 103, 111, 114, 105, 116, 104, 109, 117, 115], [], [], []⟩

/-- Entry with term "Algorithmic". -/
def sampleAlgorithmic : Entry :=
  ⟨[65, 108, 103, 111, 114, 105, 116, 104, 109, 105, 99], [], [], []⟩

/-- Entry with term "Zebra". -/
def sampleZebra : Entry :=
  ⟨[90, 101, 98, 114, 97], [], [], []⟩

/-- The query "Algorithmus". -/
def queryAlgorithmus : Str := [65, 108, 103, 111, 114, 105, 116, 104, 109, 117, 115]

/-- The query "Algoritmus" (one character removed). -/
def queryAlgoritmus : Str := [65, 108, 103, 111, 114, 105, 116, 109, 117, 115]

/-! ## Claim theorems -/

/-- C3 counterexample: on the input "²^" (superscript two followed by a
circumflex accent) the source's normalizer, which applies NFKD and strips the
Unicode Diacritic property, differs from the function described by the spec
(canonical decomposition, stripping of combining marks only): the code yields
"2", the described function yields "²^" unchanged. -/
theorem normalize_differs_from_canonical_spec :
    normalize (some [0xB2, 0x5E]) ≠ normalizeSpecNFD (some [0xB2, 0x5E]) := by
  decide

/-- C3 (amended): for every input, normalize equals the function that maps
null/undefined to the empty string and otherwise applies compatibility (NFKD)
decomposition, strips all code points carrying the Unicode Diacritic property
(including some non-combining code points such as U+005E), and lower-cases the
result; it never fails, and nullish input yields the empty string. -/
theorem normalize_amended_characterization :
    (∀ o : Option Str, normalize o = normalizeAmended o) ∧ normalize none = [] :=
  ⟨fun _ => rfl, rfl⟩

/-- C5: normalization is idempotent — for every string s,
normalize (normalize s) = normalize s. -/
theorem normalize_idempotent :
    ∀ s : Str, normalize (some (normalize (some s))) = normalize (some s) :=
  fun s => normalizeS_idem s

/-- C9: for every entry sequence and every flag setting, if the query is empty
after trimming whitespace then search returns the input sequence unchanged. -/
theorem empty_query_returns_input
    (sorted : List Entry) (query : Str) (fuzzy : Bool) (fuzzyTol : Nat)
    (h : trim query = []) :
    results sorted query fuzzy fuzzyTol = sorted := by
  unfold results
  rw [if_pos h]

/-- C9 witness: a whitespace-only query returns the concrete input sequence
unchanged. -/
theorem empty_query_returns_input_witness :
    trim [32, 9] = [] ∧
      results [sampleAlgorithmus, sampleZebra] [32, 9] true 2
        = [sampleAlgorithmus, sampleZebra] :=
  ⟨by decide, empty_query_returns_input [sampleAlgorithmus, sampleZebra] [32, 9] true 2 (by decide)⟩

/-- C1: if the query is non-empty after trimming and at least one entry's
normalized term equals the normalized query, search returns exactly the
entries whose normalized term equals the normalized query, in input order
(a filter of the input), for every setting of the fuzzy flag and tolerance —
the substring and fuzzy tiers are never consulted. -/
theorem exact_tier_short_circuits
    (sorted : List Entry) (query : Str) (fuzzy : Bool) (fuzzyTol : Nat)
    (hq : trim query ≠ [])
    (hx : sorted.filter
      (fun e => decide (normalizeS e.begriff = normalizeS (trim query))) ≠ []) :
    results sorted query fuzzy fuzzyTol
      = sorted.filter (fun e => decide (normalizeS e.begriff = normalizeS (trim query))) := by
  unfold results
  rw [if_neg hq, if_pos hx]

/-- C1 witness: with entries Algorithmus, Algorithmic, Zebra and the query
"Algorithmus", the result is exactly the entry Algorithmus. -/
theorem exact_tier_short_circuits_witness :
    trim queryAlgorithmus ≠ [] ∧
      results [sampleAlgorithmus, sampleAlgorithmic, sampleZebra] queryAlgorithmus true 2
        = [sampleAlgorithmus] := by
  refine ⟨by decide, ?_⟩
  rw [exact_tier_short_circuits [sampleAlgorithmus, sampleAlgorithmic, sampleZebra]
    queryAlgorithmus true 2 (by decide) (by decide)]
  decide

/-- C6: levenshtein computes the classic unit-cost edit distance over the
normalized forms of its two arguments via the (len a + 1) x (len b + 1)
dynamic-programming recurrence; when one normalized string is empty the
distance is the length of the other, and the boundary examples hold:
distance of "" and "" is 0, of "" and "abc" is 3, of "kitten" and "sitting"
is 3. -/
theorem levenshtein_dp_characterization :
    (∀ a b : Str, levenshtein a b
        = dp (normalizeS a) (normalizeS b) (normalizeS a).length (normalizeS b).length)
    ∧ (∀ a b : Str, normalizeS a = [] → levenshtein a b = (normalizeS b).length)
    ∧ (∀ a b : Str, normalizeS b = [] → levenshtein a b = (normalizeS a).length)
    ∧ levenshtein [] [] = 0
    ∧ levenshtein [] [97, 98, 99] = 3
    ∧ levenshtein [107, 105, 116, 116, 101, 110] [115, 105, 116, 116, 105, 110, 103] = 3 := by
  refine ⟨lev_eq_dp, ?_, ?_, by decide, by decide, by decide⟩
  · intro a b h
    unfold levenshtein
    rw [if_pos (by rw [h]; rfl)]
  · intro a b h
    unfold levenshtein
    by_cases hm : (normalizeS a).length = 0
    · rw [if_pos hm, h]
      simpa using hm.symm
    · rw [if_neg hm, if_pos (by rw [h]; rfl)]

/-- C6 witness: the empty-side cases applied at concrete inputs — the distance
of "" to "a" is the length of "a", and the distance of "a" to "" is the length
of "a". -/
theorem levenshtein_dp_characterization_witness :
    normalizeS ([] : Str) = [] ∧ levenshtein [] [97] = 1 ∧ levenshtein [97] [] = 1 := by
  refine ⟨rfl, ?_, ?_⟩
  · rw [levenshtein_dp_characterization.2.1 [] [97] rfl]
    decide
  · rw [levenshtein_dp_characterization.2.2.1 [97] [] rfl]
    decide

/-- C10: the distance of two strings is 0 exactly when their normalized forms
are equal; consequently, for any entry sequence and query the exact-tier
filter coincides with the filter keeping the entries at distance 0 from the
normalized query. -/
theorem lev_zero_iff_normalize_eq :
    (∀ a b : Str, levenshtein a b = 0 ↔ normalizeS a = normalizeS b)
    ∧ ∀ (sorted : List Entry) (q : Str),
        sorted.filter (fun e => decide (normalizeS e.begriff = normalizeS q))
          = sorted.filter (fun e => decide (levenshtein (normalizeS q) e.begriff = 0)) := by
  refine ⟨lev_zero_iff, ?_⟩
  intro sorted q
  apply List.filter_congr
  intro e _
  rw [decide_eq_decide]
  rw [lev_zero_iff, normalizeS_idem]
  exact eq_comm

/-- C8: for every query and entry sequence, suggest returns first the entries
whose normalized term has the normalized query as an initial segment (in input
order), then the entries whose normalized term contains it as a contiguous
substring but does not start with it (in input order), the concatenation
truncated to the first 8 entries; an empty query yields an empty list. -/
theorem suggest_characterization :
    (∀ (sorted : List Entry) (query : Str),
      suggestions sorted query
        = if normalizeS query = [] then ([] : List Entry)
          else ((sorted.filter (fun e => decide (StartsP (normalizeS e.begriff) (normalizeS query))))
            ++ sorted.filter (fun e =>
                decide (¬ StartsP (normalizeS e.begriff) (normalizeS query)
                  ∧ ContainsP (normalizeS e.begriff) (normalizeS query)))).take 8)
    ∧ ∀ sorted : List Entry, suggestions sorted [] = [] := by
  constructor
  · intro sorted query
    unfold suggestions
    by_cases h : normalizeS query = []
    · rw [if_pos h, if_pos h]
    · rw [if_neg h, if_neg h]
      simp only [Bool.decide_and, decide_not, decide_startsP, decide_containsP]
  · intro sorted
    rfl

/-- Entry with the all-lowercase term "cafe". -/
def sampleCafePlain : Entry := ⟨[99, 97, 102, 101], [], [], []⟩

/-- Entry with the term "Café" (capital C, e with acute). -/
def sampleCafeAccent : Entry := ⟨[67, 97, 102, 0xE9], [], [], []⟩

/-- C7 counterexample: deleting the term "cafe" from the collection
["cafe", "Café"] through the App.tsx detail-modal deletion leaves the entry
"Café" in place although its canonical term equals the canonical form of
"cafe" — deletion there is keyed on the raw term, not the canonical term. -/
theorem delete_raw_keyed_cex :
    normalizeS sampleCafeAccent.begriff = normalizeS [99, 97, 102, 101] ∧
      deleteSelected [sampleCafePlain, sampleCafeAccent] [99, 97, 102, 101]
        = [sampleCafeAccent] := by
  decide

/-- C7 (amended): the earlier variant's removeEntry removes exactly the
entries whose canonical term equals the canonical form of the given term,
keeping the rest in order; the App.tsx detail-modal deletion instead removes
exactly the entries whose raw term equals the selected term, so entries
differing only in case or diacritics survive it. -/
theorem removal_characterization :
    (∀ (prev : List Entry) (t : Str) (e : Entry),
        e ∈ removeEntry prev t ↔ e ∈ prev ∧ normalizeS e.begriff ≠ normalizeS t)
    ∧ (∀ (prev : List Entry) (t : Str), List.Sublist (removeEntry prev t) prev)
    ∧ (∀ (prev : List Entry) (b : Str) (e : Entry),
        e ∈ deleteSelected prev b ↔ e ∈ prev ∧ e.begriff ≠ b)
    ∧ (∀ (prev : List Entry) (b : Str), List.Sublist (deleteSelected prev b) prev) := by
  refine ⟨?_, ?_, ?_, ?_⟩
  · intro prev t e
    simp [removeEntry, List.mem_filter]
  · intro prev t
    exact List.filter_sublist _
  · intro prev b e
    simp [deleteSelected, List.mem_filter]
  · intro prev b
    exact List.filter_sublist _

/-! ## The fuzzy tier: stable sort by distance equals bucket concatenation -/

lemma insertByDist_cons (p q : Entry × Nat) (l : List (Entry × Nat)) :
    insertByDist p (q :: l) = if p.2 ≤ q.2 then p :: q :: l else q :: insertByDist p l :=
  rfl

lemma insertByDist_head {p : Entry × Nat} {m : List (Entry × Nat)}
    (h : ∀ q ∈ m, p.2 ≤ q.2) : insertByDist p m = p :: m := by
  cases m with
  | nil => rfl
  | cons q l =>
    rw [insertByDist_cons, if_pos (h q (by simp))]

lemma insertByDist_skip {p : Entry × Nat} :
    ∀ {m k : List (Entry × Nat)}, (∀ q ∈ m, ¬ p.2 ≤ q.2) →
      insertByDist p (m ++ k) = m ++ insertByDist p k := by
  intro m
  induction m with
  | nil => intro k _; rfl
  | cons q l ih =>
    intro k h
    rw [List.cons_append, insertByDist_cons, if_neg (h q (by simp)),
      ih (fun r hr => h r (by simp [hr])), List.cons_append]

lemma mem_buckets_ge {s n : Nat} {l : List (Entry × Nat)} {y : Entry × Nat}
    (hy : y ∈ (List.range' s n).flatMap (fun d => l.filter (fun x => decide (x.2 = d)))) :
    s ≤ y.2 := by
  rw [List.mem_flatMap] at hy
  obtain ⟨d, hd, hyf⟩ := hy
  rw [List.mem_range'_1] at hd
  have := (List.mem_filter.1 hyf).2
  simp at this
  omega

lemma flatMap_filter_cons_of_not_mem {p : Entry × Nat} {l : List (Entry × Nat)} :
    ∀ {L : List Nat}, p.2 ∉ L →
      L.flatMap (fun d => (p :: l).filter (fun y => decide (y.2 = d)))
        = L.flatMap (fun d => l.filter (fun y => decide (y.2 = d))) := by
  intro L
  induction L with
  | nil => intro; rfl
  | cons d L ih =>
    intro h
    rw [List.flatMap_cons, List.flatMap_cons, List.filter_cons,
      if_neg (by simp; intro he; exact h (by simp [he])), ih (fun hm => h (by simp [hm]))]

lemma insert_buckets (p : Entry × Nat) (l : List (Entry × Nat)) :
    ∀ (n s : Nat), s ≤ p.2 → p.2 < s + n →
      insertByDist p ((List.range' s n).flatMap (fun d => l.filter (fun y => decide (y.2 = d))))
        = (List.range' s n).flatMap (fun d => (p :: l).filter (fun y => decide (y.2 = d))) := by
  intro n
  induction n with
  | zero => intro s h1 h2; omega
  | succ n ih =>
    intro s h1 h2
    rw [List.range'_succ, List.flatMap_cons, List.flatMap_cons]
    by_cases hps : p.2 = s
    · rw [List.filter_cons, if_pos (by simp [hps])]
      rw [flatMap_filter_cons_of_not_mem (by rw [List.mem_range'_1]; omega)]
      have hall : ∀ q ∈ (l.filter (fun y => decide (y.2 = s))
          ++ (List.range' (s + 1) n).flatMap (fun d => l.filter (fun y => decide (y.2 = d)))),
          p.2 ≤ q.2 := by
        intro q hq
        rcases List.mem_append.1 hq with hq | hq
        · have := (List.mem_filter.1 hq).2
          simp at this
          omega
        · have := mem_buckets_ge hq
          omega
      rw [insertByDist_head hall, List.cons_append]
    · rw [List.filter_cons, if_neg (by simp [hps])]
      have hskip : ∀ q ∈ l.filter (fun y => decide (y.2 = s)), ¬ p.2 ≤ q.2 := by
        intro q hq
        have := (List.mem_filter.1 hq).2
        simp at this
        omega
      rw [insertByDist_skip hskip, ih (s + 1) (by omega) (by omega)]

lemma sortByDist_filter_eq_buckets (tol : Nat) :
    ∀ l : List (Entry × Nat),
      sortByDist (l.filter (fun x => decide (x.2 ≤ tol)))
        = (List.range (tol + 1)).flatMap (fun d => l.filter (fun y => decide (y.2 = d))) := by
  intro l
  induction l with
  | nil =>
    rw [List.filter_nil]
    show ([] : List (Entry × Nat))
      = (List.range (tol + 1)).flatMap (fun d => List.filter (fun y => decide (y.2 = d)) [])
    simp
  | cons p l ih =>
    rw [List.filter_cons]
    by_cases hp : p.2 ≤ tol
    · rw [if_pos (by simpa using hp)]
      show insertByDist p (sortByDist (l.filter (fun x => decide (x.2 ≤ tol)))) = _
      rw [ih, List.range_eq_range',
        insert_buckets p l (tol + 1) 0 (by omega) (by omega), ← List.range_eq_range']
    · rw [if_neg (by simpa using hp), ih,
        flatMap_filter_cons_of_not_mem (by rw [List.mem_range]; omega)]

/-- Normalizing the right argument first does not change the distance. -/
lemma lev_right_normalized (a b : Str) :
    levenshtein a (normalizeS b) = levenshtein a b := by
  rw [lev_normalized a (normalizeS b), normalizeS_idem, ← lev_normalized]

/-- C2: when the query is non-empty after trimming, fuzzy search is enabled,
and neither the exact nor the substring tier matches, the result is exactly
the concatenation of the distance buckets 0..fuzzyTolerance — each bucket the
input-ordered entries at that exact distance between the normalized query and
the normalized term — which is the ≤ tolerance entries sorted stably by
ascending distance; moreover the distance depends only on the normalized
forms of both strings. -/
theorem fuzzy_tier_sorted_buckets
    (sorted : List Entry) (query : Str) (fuzzyTol : Nat)
    (hq : trim query ≠ [])
    (hx : sorted.filter
      (fun e => decide (normalizeS e.begriff = normalizeS (trim query))) = [])
    (hs : sorted.filter
      (fun e => jsIncludes (normalizeS e.begriff) (normalizeS (trim query))) = []) :
    (results sorted query true fuzzyTol
      = (List.range (fuzzyTol + 1)).flatMap
          (fun d => sorted.filter
            (fun e => decide
              (levenshtein (normalizeS (trim query)) (normalizeS e.begriff) = d))))
    ∧ ∀ a b : Str, levenshtein a b = levenshtein (normalizeS a) (normalizeS b) := by
  refine ⟨?_, lev_normalized⟩
  unfold results
  rw [if_neg hq, if_neg (not_ne_iff.2 hx), if_neg (not_ne_iff.2 hs), if_pos rfl]
  rw [sortByDist_filter_eq_buckets fuzzyTol
    (sorted.map (fun e => (e, levenshtein (normalizeS (trim query)) e.begriff)))]
  rw [List.map_flatMap]
  have hinner : ∀ d : Nat,
      (((sorted.map (fun e => (e, levenshtein (normalizeS (trim query)) e.begriff))).filter
        (fun y => decide (y.2 = d))).map Prod.fst)
      = sorted.filter
          (fun e => decide (levenshtein (normalizeS (trim query)) (normalizeS e.begriff) = d)) := by
    intro d
    rw [List.filter_map, List.map_map]
    have h1 : Prod.fst ∘ (fun e : Entry => (e, levenshtein (normalizeS (trim query)) e.begriff))
        = id := rfl
    rw [h1, List.map_id]
    apply List.filter_congr
    intro e _
    simp only [Function.comp, lev_right_normalized]
  exact congrArg (List.flatMap (List.range (fuzzyTol + 1))) (funext hinner)

set_option maxRecDepth 4000 in
/-- C2 witness: the query "Algoritmus" over the entries Algorithmus and Zebra
with tolerance 2 and fuzzy enabled hits no exact or substring tier and yields
exactly the Algorithmus entry (distance 1). -/
theorem fuzzy_tier_sorted_buckets_witness :
    trim queryAlgoritmus ≠ [] ∧
      ([sampleAlgorithmus, sampleZebra].filter
        (fun e => decide (normalizeS e.begriff = normalizeS (trim queryAlgoritmus))) = []) ∧
      ([sampleAlgorithmus, sampleZebra].filter
        (fun e => jsIncludes (normalizeS e.begriff) (normalizeS (trim queryAlgoritmus))) = []) ∧
      results [sampleAlgorithmus, sampleZebra] queryAlgoritmus true 2 = [sampleAlgorithmus] := by
  refine ⟨by decide, by decide, by decide, ?_⟩
  rw [(fuzzy_tier_sorted_buckets [sampleAlgorithmus, sampleZebra] queryAlgoritmus 2
    (by decide) (by decide) (by decide)).1]
  decide

/-! ## Invariant preservation for the collection operations -/

lemma upsert_preserves {prev : List Entry} (p : Entry) (h : canonInvariant prev) :
    canonInvariant (upsert prev p) := by
  unfold upsert
  cases hf : prev.findIdx? (fun x => decide (normalizeS x.begriff = normalizeS p.begriff)) with
  | none =>
    rw [List.findIdx?_eq_none_iff] at hf
    unfold canonInvariant at h ⊢
    rw [List.pairwise_append]
    refine ⟨h, List.pairwise_singleton _ _, ?_⟩
    intro a ha b hb
    simp at hb
    subst hb
    have := hf a ha
    simpa using this
  | some i =>
    rw [List.findIdx?_eq_some_iff_getElem] at hf
    obtain ⟨hi, hpi, -⟩ := hf
    have hpi : normalizeS prev[i].begriff = normalizeS p.begriff := by simpa using hpi
    unfold canonInvariant at h ⊢
    rw [List.pairwise_iff_getElem] at h ⊢
    intro k l hk hl hkl
    simp only [List.length_set] at hk hl
    rw [List.getElem_set, List.getElem_set]
    by_cases hik : i = k
    · subst hik
      rw [if_pos rfl, if_neg (by omega)]
      rw [← hpi]
      exact h i l hk hl hkl
    · rw [if_neg hik]
      by_cases hil : i = l
      · subst hil
        rw [if_pos rfl, ← hpi]
        exact h k i hk hl hkl
      · rw [if_neg hil]
        exact h k l hk hl hkl

lemma saveEditor_create_preserves {prev : List Entry} (idx : Option Nat)
    (fB fD fX : Str) (fQ : List Str) (h : canonInvariant prev) :
    canonInvariant (saveEditor EditorMode.create idx fB fD fX fQ prev) := by
  unfold saveEditor
  by_cases hb : trim fB = []
  · rw [if_pos hb]; exact h
  · rw [if_neg hb]
    cases idx <;> exact upsert_preserves _ h

lemma importMerge_preserves {parsed : List Entry} :
    ∀ {prev : List Entry}, canonInvariant prev → canonInvariant (importMerge prev parsed) := by
  induction parsed with
  | nil => intro prev h; exact h
  | cons p ps ih =>
    intro prev h
    unfold importMerge at ih ⊢
    rw [List.foldl_cons]
    apply ih
    by_cases hb : trim p.begriff = []
    · rw [if_pos hb]; exact h
    · rw [if_neg hb]; exact upsert_preserves _ h

lemma upsert_replaces {prev : List Entry} (p : Entry)
    (h : ∃ x ∈ prev, normalizeS x.begriff = normalizeS p.begriff) :
    (upsert prev p).length = prev.length ∧ p ∈ upsert prev p := by
  have hs : ∃ x, x ∈ prev ∧
      (fun x => decide (normalizeS x.begriff = normalizeS p.begriff)) x = true := by
    obtain ⟨x, hx, he⟩ := h
    exact ⟨x, hx, by simpa using he⟩
  have hi := List.findIdx?_eq_some_of_exists hs
  set i := prev.findIdx (fun x => decide (normalizeS x.begriff = normalizeS p.begriff)) with hidef
  have hlen : i < prev.length := by
    rw [List.findIdx?_eq_some_iff_getElem] at hi
    exact hi.1
  unfold upsert
  rw [hi]
  show (prev.set i p).length = prev.length ∧ p ∈ prev.set i p
  refine ⟨List.length_set _ _ _, ?_⟩
  have hlen2 : i < (prev.set i p).length := by simpa using hlen
  have hgot : (prev.set i p)[i] = p := by
    rw [List.getElem_set, if_pos rfl]
  rw [List.mem_iff_getElem]
  exact ⟨i, hlen2, hgot⟩

/-- C4 counterexample: the collection with the two terms "a" and "b" satisfies
the uniqueness invariant, but saving the editor in edit mode at index 0 with
the term renamed to "b" overwrites in place without a uniqueness check and
produces two entries with equal canonical terms. -/
theorem edit_save_breaks_invariant :
    canonInvariant [⟨[97], [], [], []⟩, ⟨[98], [], [], []⟩] ∧
      ¬ canonInvariant
        (saveEditor EditorMode.edit (some 0) [98] [] [] []
          [⟨[97], [], [], []⟩, ⟨[98], [], [], []⟩]) := by
  decide

/-- C4 (amended): the canonical-uniqueness invariant is preserved by the
upsert step, by the editor's save in create mode, and by the CSV import
merge, and an upsert whose canonical term is already present replaces an
existing record (same length, new record present — last write wins); the
editor's save in edit mode, however, overwrites by index without a
uniqueness check and can break the invariant. -/
theorem invariant_preservation :
    (∀ (prev : List Entry) (p : Entry), canonInvariant prev → canonInvariant (upsert prev p))
    ∧ (∀ (prev : List Entry) (idx : Option Nat) (fB fD fX : Str) (fQ : List Str),
        canonInvariant prev →
          canonInvariant (saveEditor EditorMode.create idx fB fD fX fQ prev))
    ∧ (∀ (prev parsed : List Entry),
        canonInvariant prev → canonInvariant (importMerge prev parsed))
    ∧ (∀ (prev : List Entry) (p : Entry),
        (∃ x ∈ prev, normalizeS x.begriff = normalizeS p.begriff) →
          (upsert prev p).length = prev.length ∧ p ∈ upsert prev p) :=
  ⟨fun _ p h => upsert_preserves p h,
   fun _ idx fB fD fX fQ h => saveEditor_create_preserves idx fB fD fX fQ h,
   fun _ _ h => importMerge_preserves h,
   fun _ p h => upsert_replaces p h⟩

/-- C4 witness: saving a colliding record in create mode over the concrete
collection ["Café", "Zebra"] keeps the invariant (the record replaces
"Café"), and importing a CSV with a colliding row keeps it as well. -/
theorem invariant_preservation_witness :
    canonInvariant [sampleCafeAccent, sampleZebra] ∧
      canonInvariant
        (saveEditor EditorMode.create none sampleCafePlain.begriff [] [] []
          [sampleCafeAccent, sampleZebra]) ∧
      canonInvariant (importMerge [sampleCafeAccent, sampleZebra] [sampleCafePlain]) :=
  ⟨by decide,
   invariant_preservation.2.1 [sampleCafeAccent, sampleZebra] none
     sampleCafePlain.begriff [] [] [] (by decide),
   invariant_preservation.2.2.1 [sampleCafeAccent, sampleZebra] [sampleCafePlain] (by decide)⟩

end Glossar
